import Mathlib

/-!
Verification development for the Surge VS Code extension's diagnostic
acquisition pipeline (src/extension.js).

The JavaScript source is shallowly embedded as executable Lean definitions:

* JSON values produced by the external analyzer are modelled by the `Json`
  inductive; the platform primitive `JSON.parse` is represented by an
  `Option Json` argument (`none` models a parse exception).
* Node's posix `path.normalize` / `path.resolve` / `path.isAbsolute` are
  modelled at the character-list level (`posixNormalizeChars`,
  `posixResolveChars`), following the documented normalizeString algorithm.
  `process.platform` is pinned to a POSIX platform, and `process.cwd()` is
  modelled by the constant `processCwd`.
* Stateful parts (debounce timers, analyzer availability, the runAnalysis
  control flow) are modelled as explicit state machines over event lists.

Machine numbers from the wire format are modelled as `Int` (the analyzer
emits finite integer line/column values; the `Number(string)` coercion
branch of `toZeroBased` and non-string truthy `file` fields are outside
the model, as noted at each definition).
-/

namespace Surge

/-- JSON values, as produced by the external analyzer and consumed by
`parseDiagnostics`.  Numbers are modelled as integers (the wire format
carries integer line/column data). -/
inductive Json where
  | null : Json
  | bool (b : Bool) : Json
  | num (n : Int) : Json
  | str (s : String) : Json
  | arr (elems : List Json) : Json
  | obj (fields : List (String × Json)) : Json

/-- First binding of a key in a JSON object's field list (JavaScript object
property access; duplicate keys do not occur in the analyzer's output). -/
def lookupField : List (String × Json) → String → Option Json
  | [], _ => none
  | (k, v) :: rest, key => if k = key then some v else lookupField rest key

/-- JavaScript property access `j.key`: `none` models `undefined`
(missing key, or access on a non-object primitive). -/
def Json.getF : Json → String → Option Json
  | Json.obj fields, key => lookupField fields key
  | _, _ => none

/-- Optional-chaining property access `o?.key`. -/
def jget (o : Option Json) (key : String) : Option Json :=
  o.bind (fun j => Json.getF j key)

/-- JavaScript truthiness of a JSON value (NaN does not occur in the
integer model). -/
def Json.truthy : Json → Bool
  | Json.null => false
  | Json.bool b => b
  | Json.num n => decide (n ≠ 0)
  | Json.str s => decide (s ≠ "")
  | Json.arr _ => true
  | Json.obj _ => true

/-- The nullish-coalescing operator `a ?? b` on property-access results:
both `undefined` (`none`) and JSON `null` select the right operand. -/
def jsCoalesce (a b : Option Json) : Option Json :=
  match a with
  | none => b
  | some Json.null => b
  | some v => some v

/-- Extract a JSON string; every other value maps to `none`.  Used where the
source hands a location's `file` field to `normalizeFsPath` (a non-string
truthy value there would make `path.isAbsolute` throw and is outside the
model; the analyzer emits strings). -/
def jstrOpt (o : Option Json) : Option String :=
  match o with
  | some (Json.str s) => some s
  | _ => none

/-- Truthiness of an optional string (JavaScript: `undefined` and the empty
string are falsy). -/
def optTruthy (o : Option String) : Bool :=
  match o with
  | some s => decide (s ≠ "")
  | none => false

/-- Membership of an optional string in a list of paths (the `Set.has` test
of the source; `undefined` is a member of no set). -/
def optMemList (o : Option String) (l : List String) : Bool :=
  match o with
  | some s => decide (s ∈ l)
  | none => false

/-! ### Node posix path model

`path.normalize`, `path.resolve` and `path.isAbsolute` for the posix flavor,
implemented on `List Char` exactly following Node's `normalizeString`
segment algorithm: empty and `.` segments are dropped, `..` pops the last
collected segment (or, in relative mode only, accumulates leading `..`
segments). -/

/-- Split a character list on `/` separators (the segment decomposition
used by Node's normalizeString). -/
def splitSlash : List Char → List (List Char)
  | [] => [[]]
  | c :: rest =>
    if c = '/' then [] :: splitSlash rest
    else
      match splitSlash rest with
      | [] => [[c]]
      | s :: ss => (c :: s) :: ss

/-- Join segments with `/` separators. -/
def joinSlash : List (List Char) → List Char
  | [] => []
  | [s] => s
  | s :: t :: ss => s ++ '/' :: joinSlash (t :: ss)

/-- Node `normalizeString`: process the raw segments left to right keeping a
stack of output segments; `allowAboveRoot` is true exactly for relative
paths (leading `..` segments are preserved there and dropped at a root). -/
def normSegsAux (allowAboveRoot : Bool) (acc : List (List Char)) :
    List (List Char) → List (List Char)
  | [] => acc.reverse
  | s :: rest =>
    if s = [] ∨ s = ['.'] then normSegsAux allowAboveRoot acc rest
    else if s = ['.', '.'] then
      match acc with
      | top :: acc2 =>
        if top = ['.', '.'] then
          (if allowAboveRoot then normSegsAux allowAboveRoot (s :: acc) rest
           else normSegsAux allowAboveRoot acc rest)
        else normSegsAux allowAboveRoot acc2 rest
      | [] =>
        if allowAboveRoot then normSegsAux allowAboveRoot [s] rest
        else normSegsAux allowAboveRoot [] rest
    else normSegsAux allowAboveRoot (s :: acc) rest

/-- Normalized segment list of a raw segment list. -/
def normSegs (allowAboveRoot : Bool) (l : List (List Char)) : List (List Char) :=
  normSegsAux allowAboveRoot [] l

/-- Node `path.posix.normalize` on character lists. -/
def posixNormalizeChars (cs : List Char) : List Char :=
  if cs = [] then ['.']
  else
    let isAbs := cs.head? = some '/'
    let trailing := cs.getLast? = some '/'
    let segs := normSegs (!isAbs) (splitSlash cs)
    if segs = [] then
      (if isAbs then ['/'] else if trailing then ['.', '/'] else ['.'])
    else
      let body := if trailing then joinSlash segs ++ ['/'] else joinSlash segs
      if isAbs then '/' :: body else body

/-- Node `path.posix.resolve` with a single relative argument: the process
working directory (absolute) is prepended, segments are normalized without
above-root escapes, and the result is rooted (and `/` when empty). -/
def posixResolveChars (cwd p : List Char) : List Char :=
  '/' :: joinSlash (normSegs false (splitSlash (cwd ++ '/' :: p)))

/-- `path.posix.normalize` on strings. -/
def posixNormalize (p : String) : String :=
  ⟨posixNormalizeChars p.data⟩

/-- `path.posix.resolve cwd p` on strings. -/
def posixResolve (cwd p : String) : String :=
  ⟨posixResolveChars cwd.data p.data⟩

/-- `path.posix.isAbsolute`. -/
def pathIsAbsolute (p : String) : Bool :=
  p.data.head? = some '/'

/-- Models `process.cwd()`: an arbitrary absolute working directory. -/
def processCwd : String := "/workspace"

/-- Models `process.platform === "win32"`; the model is pinned to a POSIX
platform (the win32 branch additionally lower-cases, see `normalizeFsPath`). -/
def platformIsWin32 : Bool := false

/-- ASCII lower-casing, modelling `String.prototype.toLowerCase` on paths
(only reachable on win32, hence unused under `platformIsWin32 = false`). -/
def toLowerAscii (s : String) : String :=
  ⟨s.data.map Char.toLower⟩

/-- src/extension.js lines 12-22, `normalizeFsPath`: falsy input yields
`undefined`; a relative path is resolved against the working directory;
the result is lexically normalized and, on win32 only, lower-cased. -/
def normalizeFsPath (fsPath : Option String) : Option String :=
  match fsPath with
  | none => none
  | some p =>
    if p = "" then none
    else
      let candidate := if pathIsAbsolute p then p else posixResolve processCwd p
      let normalized := posixNormalize candidate
      some (if platformIsWin32 then toLowerAscii normalized else normalized)

/-! ### Editor data model -/

/-- A zero-based position in a document (vscode.Position). -/
structure Position where
  line : Nat
  character : Nat
deriving DecidableEq, Repr

/-- A range in a document (vscode.Range); `endPos` is the exclusive end
(`end` in the source, renamed because `end` is a Lean keyword). -/
structure Range where
  start : Position
  endPos : Position
deriving DecidableEq, Repr

/-- The host editor's view of a text document: the fields of
vscode.TextDocument read by the pipeline.  `lines` carries the text; the
host primitives `lineCount` and `lineAt` are `lines.length` and
`lines.get?` (`lineAt` throwing out of range is `none`). -/
structure Document where
  uriKey : String
  scheme : String
  fsPath : String
  version : Nat
  isDirty : Bool
  isUntitled : Bool
  isClosed : Bool
  lines : List String
deriving Repr

/-- The Analysis Context of src/extension.js `prepareInput` (lines 132-152):
path to analyze, its normalized form, the normalized document path, and
whether a cleanup action (temp-file deletion) is attached. -/
structure ContextInfo where
  path : Option String
  normalizedAnalysisPath : Option String
  normalizedDocumentPath : Option String
  hasCleanup : Bool
deriving Repr

/-- Diagnostic severities used by the pipeline (vscode.DiagnosticSeverity). -/
inductive Severity where
  | error
  | warning
  | information
deriving DecidableEq, Repr

/-- A related-information entry (vscode.DiagnosticRelatedInformation) built
by `buildRelatedInformation`; the location's document is always the
analyzed document. -/
structure RelatedInfo where
  range : Range
  message : String
deriving Repr

/-- A produced diagnostic record (vscode.Diagnostic plus the fix
association).  `message` and `code` are kept as raw JSON values, as the
source forwards them unconverted; `fixes` models the WeakMap entry keyed by
this diagnostic (`some` exactly when a non-empty fixes array was attached). -/
structure Diagnostic where
  range : Range
  message : Option Json
  severity : Severity
  source : String
  code : Option Json
  related : List RelatedInfo
  fixes : Option Json

/-! ### Range construction (src/extension.js lines 371-431) -/

/-- src/extension.js lines 420-431, `toZeroBased`: a finite number maps to
`Math.max(0, value - 1)`; anything else maps to `null`.  The
`Number(string)` coercion branch is not modelled (the wire format carries
numbers); non-numeric values yield `none` as in the source. -/
def toZeroBased (value : Option Json) : Option Nat :=
  match value with
  | some (Json.num n) => some (n - 1).toNat
  | _ => none

/-- Line 372: `toZeroBased(location?.start_line ?? location?.startLine)`. -/
def rawStartLine (location : Option Json) : Option Nat :=
  toZeroBased (jsCoalesce (jget location "start_line") (jget location "startLine"))

/-- Line 373: `toZeroBased(location?.start_col ?? location?.startCol)`. -/
def rawStartCol (location : Option Json) : Option Nat :=
  toZeroBased (jsCoalesce (jget location "start_col") (jget location "startCol"))

/-- Line 377: `toZeroBased(location?.end_line ?? location?.endLine)`. -/
def rawEndLine (location : Option Json) : Option Nat :=
  toZeroBased (jsCoalesce (jget location "end_line") (jget location "endLine"))

/-- Line 378: `toZeroBased(location?.end_col ?? location?.endCol)`. -/
def rawEndCol (location : Option Json) : Option Nat :=
  toZeroBased (jsCoalesce (jget location "end_col") (jget location "endCol"))

/-- src/extension.js lines 386-417: clamp the four zero-based coordinates to
the document.  `lineAt` failure on the start line aborts (`none`); failure
on the end line falls back to the start line.  A degenerate same-line range
is widened by one character when the start sits strictly inside the line. -/
def clampToDocument (doc : Document) (startLine startCol endLine endCol : Nat) :
    Option Range :=
  let lastLineIndex := doc.lines.length - 1
  let clampedStartLine := min (max startLine 0) lastLineIndex
  let clampedEndLine := min (max endLine 0) lastLineIndex
  match doc.lines.get? clampedStartLine with
  | none => none
  | some startLineText =>
    let endPart : Nat × String :=
      match doc.lines.get? clampedEndLine with
      | some t => (clampedEndLine, t)
      | none => (clampedStartLine, startLineText)
    let startCharacter := min (max startCol 0) startLineText.length
    let endCharacter := min (max endCol 0) endPart.2.length
    let endCharacter2 :=
      if clampedStartLine = endPart.1 ∧ endCharacter ≤ startCharacter then
        (if startCharacter < startLineText.length then startCharacter + 1
         else endCharacter)
      else endCharacter
    some { start := { line := clampedStartLine, character := startCharacter },
           endPos := { line := endPart.1, character := endCharacter2 } }

/-- src/extension.js lines 371-418, `createRangeFromLocation`: extract the
1-based coordinates (either field-name convention), default a missing end
to the start, then clamp to the document. -/
def createRangeFromLocation (doc : Document) (location : Option Json) :
    Option Range :=
  match rawStartLine location, rawStartCol location with
  | some startLine, some startCol =>
    clampToDocument doc startLine startCol
      ((rawEndLine location).getD startLine)
      ((rawEndCol location).getD startCol)
  | _, _ => none

/-! ### Diagnostic parsing (src/extension.js lines 265-361) -/

/-- ASCII upper-casing, modelling `String.prototype.toUpperCase` on the
severity strings of the wire format. -/
def toUpperAscii (s : String) : String :=
  ⟨s.data.map Char.toUpper⟩

/-- src/extension.js lines 322-334, `mapSeverity`: case-normalized severity
strings; anything unrecognized (or non-string) is an error. -/
def mapSeverity (kind : Option Json) : Severity :=
  let normalized := match kind with
    | some (Json.str s) => toUpperAscii s
    | _ => ""
  if normalized = "WARNING" then Severity.warning
  else if normalized = "NOTE" ∨ normalized = "INFO" then Severity.information
  else Severity.error

/-- Lines 283-289: the target path set, assembled from the truthy normalized
paths of the context (modelled as a list; only emptiness and membership are
consumed). -/
def targetPathsOf (ctx : ContextInfo) : List String :=
  (match ctx.normalizedDocumentPath with
   | some s => if s = "" then [] else [s]
   | none => []) ++
  (match ctx.normalizedAnalysisPath with
   | some s => if s = "" then [] else [s]
   | none => [])

/-- Line 296: the normalized form of an item's `location.file`. -/
def locFilePath (item : Json) : Option String :=
  normalizeFsPath (jstrOpt (jget (Json.getF item "location") "file"))

/-- src/extension.js lines 336-361, `buildRelatedInformation`: notes pass
through the same target-path filter and range construction; a falsy message
becomes the empty string. -/
def buildRelatedInformation (doc : Document) (notes : Option Json)
    (targetPaths : List String) : List RelatedInfo :=
  match notes with
  | some (Json.arr ns) =>
    ns.filterMap (fun note =>
      if ¬ note.truthy then none
      else match Json.getF note "location" with
      | none => none
      | some loc =>
        if ¬ loc.truthy then none
        else
          let locationPath := normalizeFsPath (jstrOpt (jget (some loc) "file"))
          if targetPaths.length > 0 ∧ optTruthy locationPath
              ∧ ¬ optMemList locationPath targetPaths then none
          else match createRangeFromLocation doc (some loc) with
          | none => none
          | some range =>
            some { range := range,
                   message := (jstrOpt (Json.getF note "message")).getD "" })
  | _ => []

/-- The per-item body of the loop in src/extension.js lines 292-318: a falsy
item or location is skipped; an item whose location file normalizes outside
a non-empty target set is skipped; an item without a constructible range is
skipped; otherwise a diagnostic record is produced. -/
def processItem (doc : Document) (targetPaths : List String) (item : Json) :
    Option Diagnostic :=
  if ¬ item.truthy then none
  else match Json.getF item "location" with
  | none => none
  | some loc =>
    if ¬ loc.truthy then none
    else
      let locationPath := locFilePath item
      if targetPaths.length > 0 ∧ optTruthy locationPath
          ∧ ¬ optMemList locationPath targetPaths then none
      else match createRangeFromLocation doc (some loc) with
      | none => none
      | some range =>
        let code := match Json.getF item "code" with
          | some c => if c.truthy then some c else none
          | none => none
        let fixes := match Json.getF item "fixes" with
          | some (Json.arr fs) => if fs.length > 0 then some (Json.arr fs) else none
          | _ => none
        some { range := range,
               message := Json.getF item "message",
               severity := mapSeverity (Json.getF item "severity"),
               source := "surge",
               code := code,
               related := buildRelatedInformation doc (Json.getF item "notes") targetPaths,
               fixes := fixes }

/-- Line 278: `Array.isArray(payload?.diagnostics) ? payload.diagnostics : []`. -/
def jsonItems (payload : Json) : List Json :=
  match Json.getF payload "diagnostics" with
  | some (Json.arr xs) => xs
  | _ => []

/-- The guard `!stdout || stdout.trim().length === 0` of line 266: it holds
exactly when every character of the string is whitespace (trimming leading
and trailing whitespace leaves the empty string iff the whole string is
whitespace). -/
def isBlank (s : String) : Bool :=
  s.data.all Char.isWhitespace

/-- src/extension.js lines 265-320, `parseDiagnostics`.  `parsed` models the
outcome of the platform primitive `JSON.parse stdout` (`none` models the
thrown-and-caught parse error).  Empty and whitespace-only stdout short
circuit before parsing; a missing or non-array `diagnostics` field yields
the empty list (the source's redundant second array/emptiness guard is
subsumed by `jsonItems` returning `[]`). -/
def parseDiagnostics (stdout : String) (parsed : Option Json) (doc : Document)
    (ctx : ContextInfo) : List Diagnostic :=
  if isBlank stdout then []
  else match parsed with
  | none => []
  | some payload => (jsonItems payload).filterMap (processItem doc (targetPathsOf ctx))

/-! ### runAnalysis control flow (src/extension.js lines 81-130) -/

/-- The value `invokeSurge` resolves with on normal process exit
(lines 236-242). -/
structure InvokeResult where
  stdout : String
  stderr : String
  exitCode : Int
deriving Repr

/-- How the awaited `invokeSurge` promise settles: it resolves with a
result, resolves with `null` (spawn failure paths), or throws. -/
inductive InvokeOutcome where
  | resolves (r : Option InvokeResult)
  | throws
deriving Repr

/-- Result of the try/finally block of lines 100-111: how many times the
context's cleanup ran, and the control outcome (`none` models the exception
propagating out; `some r` models control reaching line 113 with result `r`). -/
structure InvocationPhase where
  cleanupCalls : Nat
  outcome : Option (Option InvokeResult)
deriving Repr

/-- src/extension.js lines 100-111: `await invokeSurge` inside `try`, with a
`finally` block that invokes the context's cleanup (when present) exactly
once on every exit path; the inner try/catch swallows a cleanup failure
(`cleanupFails` therefore never affects the outcome). -/
def runInvocationPhase (hasCleanup : Bool) (inv : InvokeOutcome)
    (cleanupFails : Bool) : InvocationPhase :=
  let tryResult : Option (Option InvokeResult) :=
    match inv with
    | InvokeOutcome.resolves r => some r
    | InvokeOutcome.throws => none
  let calls := if hasCleanup then 1 else 0
  let _ := cleanupFails
  { cleanupCalls := calls, outcome := tryResult }

/-- src/extension.js lines 100-130, from the invocation onward: after the
try/finally settles, a null result returns (lines 113-115); a stale document
(version changed or closed, lines 117-119) returns; otherwise the parsed
diagnostics are set on the collection (lines 128-129).  The pair returned is
(number of cleanup calls, collection update), where `none` means the
document's diagnostic collection is neither set nor cleared and `some ds`
means `diagnosticCollection.set(document.uri, ds)`. -/
def runAnalysisModel (hasCleanup : Bool) (inv : InvokeOutcome)
    (cleanupFails : Bool) (versionAtStart : Nat) (docNow : Document)
    (ctx : ContextInfo) (parsed : Option Json) :
    Nat × Option (List Diagnostic) :=
  let phase := runInvocationPhase hasCleanup inv cleanupFails
  match phase.outcome with
  | none => (phase.cleanupCalls, none)
  | some none => (phase.cleanupCalls, none)
  | some (some r) =>
    if docNow.version ≠ versionAtStart ∨ docNow.isClosed then
      (phase.cleanupCalls, none)
    else
      (phase.cleanupCalls, some (parseDiagnostics r.stdout parsed docNow ctx))

/-! ### Debounce scheduler (src/extension.js lines 62-79)

A single document's trigger timeline: `debounceFires ts pending` processes
the trigger times `ts` (ascending).  The event loop delivers a pending
timer whose expiry has passed before the next trigger runs; an unexpired
pending timer is cancelled by `clearTimeout`; each trigger schedules a new
expiry `t + debounceMs`; the trailing pending timer fires after the trace.
Each fire time is the moment `runAnalysis(document)` reads the live
document, so the invocation observes the snapshot current at expiry. -/

/-- `DEFAULT_DEBOUNCE_MS` (line 8). -/
def debounceMs : Nat := 500

/-- Fire times of the debounce timer for one document given its trigger
times (ascending) and the currently pending expiry. -/
def debounceFires : List Nat → Option Nat → List Nat
  | [], pending =>
    (match pending with
     | some e => [e]
     | none => [])
  | t :: rest, pending =>
    (match pending with
     | some e => if e ≤ t then [e] else []
     | none => []) ++ debounceFires rest (some (t + debounceMs))

/-- The analysis invocations produced by a trigger timeline: one per fire
time, each reading the document state current at that time (`docAt`). -/
def debounceInvocations {α : Type} (docAt : Nat → α) (ts : List Nat) : List α :=
  (debounceFires ts none).map docAt

/-- Lines 69-78 acting on the `debounceHandles` map (uri key to pending
expiry): the existing entry for the key is cancelled and replaced by the
new expiry; other keys are untouched. -/
def triggerHandles (handles : List (String × Nat)) (key : String) (now : Nat) :
    List (String × Nat) :=
  (key, now + debounceMs) :: handles.filter (fun e => decide (e.1 ≠ key))

/-! ### Analyzer availability (src/extension.js lines 62-68 and 213-242) -/

/-- Events observable by the availability state: a spawn error (ENOENT or
other), a process close, and a trigger call for a surge document.
Configuration changes (lines 37-46) reset this state and are outside these
traces, matching the per-session scope of the availability flag. -/
inductive AnalyzerEvent where
  | spawnErr (enoent : Bool)
  | procClose (code : Option Int)
  | triggerEvt
deriving DecidableEq, Repr

/-- User-visible and collection effects of the availability machine. -/
inductive Effect where
  | warnMissing
  | clearAll
  | startTimer
deriving DecidableEq, Repr

/-- The analyzer's availability state: `available` is the tri-state
undefined/true/false flag, `notifiedMissing` the one-time warning latch. -/
structure AvailState where
  available : Option Bool
  notifiedMissing : Bool
deriving DecidableEq, Repr

/-- Constructor state (lines 30-31). -/
def initAvail : AvailState := { available := none, notifiedMissing := false }

/-- One event step: lines 213-226 for spawn errors (ENOENT marks the
analyzer unavailable, warns once, clears the collection; other errors only
log), lines 236-239 for close (available becomes true unless already
false), lines 62-68 for trigger (no timer starts while unavailable). -/
def stepAnalyzer (st : AvailState) : AnalyzerEvent → AvailState × List Effect
  | AnalyzerEvent.spawnErr true =>
    ({ available := some false, notifiedMissing := true },
     (if st.notifiedMissing then [] else [Effect.warnMissing]) ++ [Effect.clearAll])
  | AnalyzerEvent.spawnErr false => (st, [])
  | AnalyzerEvent.procClose _ =>
    ((if st.available = some false then st else { st with available := some true }), [])
  | AnalyzerEvent.triggerEvt =>
    (st, if st.available = some false then [] else [Effect.startTimer])

/-- Run a trace of events, accumulating effects in order. -/
def runAnalyzer (st : AvailState) : List AnalyzerEvent → AvailState × List Effect
  | [] => (st, [])
  | e :: evs =>
    let step := stepAnalyzer st e
    let rest := runAnalyzer step.1 evs
    (rest.1, step.2 ++ rest.2)

/-- Number of user-visible missing-executable warnings in an effect list. -/
def warnCount (effs : List Effect) : Nat :=
  effs.countP (fun e => decide (e = Effect.warnMissing))

/-! ### Code-action builder (src/extension.js lines 466-537) -/

/-- A produced quick-fix action: title, the realized (range, replacement)
edits against the open document, the preferred flag, and whether
documentation was attached. -/
structure CodeActionM where
  title : String
  edits : List (Range × String)
  isPreferred : Option Bool
  hasDocumentation : Bool

/-- Line 479: the path argument `change?.location?.file || docUri.fsPath`
handed to `normalizeFsPath` for one edit (the edit's own file when truthy,
else the document's path). -/
def editTargetFile (doc : Document) (change : Json) : String :=
  match jget (Json.getF change "location") "file" with
  | some (Json.str s) => if s = "" then doc.fsPath else s
  | _ => doc.fsPath

/-- Lines 478-490, one loop iteration: skip the edit when it targets a
different normalized path than the open document, skip it when no range can
be built, else realize it with its replacement text (empty string when
`new_text` is not a string). -/
def editSurvivor (doc : Document) (documentPath : Option String) (change : Json) :
    Option (Range × String) :=
  let targetPath := normalizeFsPath (some (editTargetFile doc change))
  if optTruthy targetPath ∧ optTruthy documentPath ∧ targetPath ≠ documentPath then
    none
  else match createRangeFromLocation doc (Json.getF change "location") with
  | none => none
  | some range =>
    let newText := match Json.getF change "new_text" with
      | some (Json.str s) => s
      | _ => ""
    some (range, newText)

/-- A single JSON string value (the snippet arrays of the wire format carry
strings; `Array.join` coercion of other values is outside the model). -/
def jstrOptOne : Json → Option String
  | Json.str s => some s
  | _ => none

/-- Lines 516-536, `buildDocumentation`: documentation exists exactly when
some edit carries a truthy joined `before_lines` or `after_lines` snippet
(an empty array joins to the falsy empty string). -/
def hasDocSnippets (edits : List Json) : Bool :=
  edits.any (fun change =>
    (match Json.getF change "before_lines" with
     | some (Json.arr ls) =>
       decide ((String.intercalate "\n" (ls.filterMap jstrOptOne)) ≠ "")
     | _ => false) ||
    (match Json.getF change "after_lines" with
     | some (Json.arr ls) =>
       decide ((String.intercalate "\n" (ls.filterMap jstrOptOne)) ≠ "")
     | _ => false))

/-- src/extension.js lines 466-514, `buildAction`: requires a non-empty
`edits` array; folds over the edits accumulating realized edits and the
`applied` flag; with no realized edit no action is produced; otherwise the
action carries title (defaulted), edits, preferred flag (either field-name
convention, booleans only) and documentation presence.  The document always
has a URI in the host model, so the `!docUri` guard of line 474 is not
reachable here. -/
def buildAction (doc : Document) (fix : Json) : Option CodeActionM :=
  match Json.getF fix "edits" with
  | some (Json.arr edits) =>
    if edits.length = 0 then none
    else
      let documentPath := normalizeFsPath (some doc.fsPath)
      let folded := edits.foldl
        (fun (acc : List (Range × String) × Bool) change =>
          match editSurvivor doc documentPath change with
          | some e => (acc.1 ++ [e], true)
          | none => acc)
        ([], false)
      if folded.2 = false then none
      else
        some { title := (jstrOpt (Json.getF fix "title")).getD "Apply Surge fix",
               edits := folded.1,
               isPreferred :=
                 (match Json.getF fix "isPreferred" with
                  | some (Json.bool b) => some b
                  | _ =>
                    match Json.getF fix "is_preferred" with
                    | some (Json.bool b) => some b
                    | _ => none),
               hasDocumentation := hasDocSnippets edits }
  | _ => none

/-! ### Sample values used by witnesses -/

/-- A sample open document backing `/a/b.sg` with three lines. -/
def sampleDoc : Document :=
  { uriKey := "file:///a/b.sg", scheme := "file", fsPath := "/a/b.sg",
    version := 1, isDirty := false, isUntitled := false, isClosed := false,
    lines := ["zz", "yy", "abcd"] }

/-- The direct-from-disk analysis context for `sampleDoc`. -/
def sampleCtx : ContextInfo :=
  { path := some "/a/b.sg", normalizedAnalysisPath := some "/a/b.sg",
    normalizedDocumentPath := some "/a/b.sg", hasCleanup := false }

/-! ### Claim theorems -/

/-- Claim C1: if, between capturing the document's version at invocation
start and the invocation's completion, the version has changed or the
document has been closed, the completion's output neither sets nor clears
the document's diagnostic collection (`runAnalysisModel` produces no
collection update). -/
theorem stale_result_discarded (hasCleanup : Bool) (inv : InvokeOutcome)
    (cleanupFails : Bool) (versionAtStart : Nat) (docNow : Document)
    (ctx : ContextInfo) (parsed : Option Json)
    (h : docNow.version ≠ versionAtStart ∨ docNow.isClosed = true) :
    (runAnalysisModel hasCleanup inv cleanupFails versionAtStart docNow ctx
      parsed).2 = none := by
  rcases inv with r | _
  · rcases r with _ | r
    · simp [runAnalysisModel, runInvocationPhase]
    · simp only [runAnalysisModel, runInvocationPhase]
      rw [if_pos]
      rcases h with h | h
      · exact Or.inl h
      · exact Or.inr (by simp [h])
  · simp [runAnalysisModel, runInvocationPhase]

/-- Witness for C1 at a closed document. -/
theorem stale_result_discarded_witness :
    (runAnalysisModel false
      (InvokeOutcome.resolves (some { stdout := "x", stderr := "", exitCode := 0 }))
      false 1 { sampleDoc with isClosed := true } sampleCtx none).2 = none :=
  stale_result_discarded false _ false 1 _ sampleCtx none (Or.inr rfl)

/-- Claim C9: when the Analysis Context carries a cleanup action, the
cleanup runs exactly once however the invocation settles (result, null
result, or exception); a cleanup failure changes nothing; and a produced
result is still processed (parsed and set) when the document is fresh. -/
theorem cleanup_runs_exactly_once (inv : InvokeOutcome) (cleanupFails : Bool)
    (versionAtStart : Nat) (docNow : Document) (ctx : ContextInfo)
    (parsed : Option Json) :
    (runAnalysisModel true inv cleanupFails versionAtStart docNow ctx parsed).1 = 1 ∧
    runAnalysisModel true inv true versionAtStart docNow ctx parsed =
      runAnalysisModel true inv false versionAtStart docNow ctx parsed ∧
    (∀ r, inv = InvokeOutcome.resolves (some r) → docNow.version = versionAtStart →
      docNow.isClosed = false →
      (runAnalysisModel true inv cleanupFails versionAtStart docNow ctx parsed).2 =
        some (parseDiagnostics r.stdout parsed docNow ctx)) := by
  refine ⟨?_, ?_, ?_⟩
  · rcases inv with r | _
    · rcases r with _ | r
      · simp [runAnalysisModel, runInvocationPhase]
      · simp only [runAnalysisModel, runInvocationPhase]
        split <;> rfl
    · simp [runAnalysisModel, runInvocationPhase]
  · rfl
  · rintro r rfl hv hc
    simp [runAnalysisModel, runInvocationPhase, hv, hc]

/-- Witness for C9 on a fresh document with a produced result. -/
theorem cleanup_runs_exactly_once_witness :
    (runAnalysisModel true
      (InvokeOutcome.resolves (some { stdout := "x", stderr := "", exitCode := 0 }))
      true 1 sampleDoc sampleCtx none).1 = 1 ∧
    (runAnalysisModel true
      (InvokeOutcome.resolves (some { stdout := "x", stderr := "", exitCode := 0 }))
      true 1 sampleDoc sampleCtx none).2 =
      some (parseDiagnostics "x" none sampleDoc sampleCtx) := by
  have h := cleanup_runs_exactly_once
    (InvokeOutcome.resolves (some { stdout := "x", stderr := "", exitCode := 0 }))
    true 1 sampleDoc sampleCtx none
  exact ⟨h.1, h.2.2 _ rfl rfl rfl⟩

/-- Claim C5: stdout that is empty or whitespace-only, not valid JSON, or
parses to a value without a `diagnostics` array, yields the empty
diagnostic list (totally, with no fault); and in the fresh-result path this
empty list is set on the document, replacing its previous diagnostics. -/
theorem malformed_stdout_yields_empty (stdout : String) (parsed : Option Json)
    (doc : Document) (ctx : ContextInfo) (versionAtStart : Nat)
    (hasCleanup cleanupFails : Bool) (res : InvokeResult)
    (h : isBlank stdout = true ∨ parsed = none ∨
      ∃ j, parsed = some j ∧ ∀ xs, Json.getF j "diagnostics" ≠ some (Json.arr xs)) :
    parseDiagnostics stdout parsed doc ctx = [] ∧
    (doc.version = versionAtStart → doc.isClosed = false → res.stdout = stdout →
      (runAnalysisModel hasCleanup (InvokeOutcome.resolves (some res)) cleanupFails
        versionAtStart doc ctx parsed).2 = some []) := by
  have hempty : parseDiagnostics stdout parsed doc ctx = [] := by
    rcases h with h | h | ⟨j, hj, hna⟩
    · simp [parseDiagnostics, h]
    · subst h
      unfold parseDiagnostics
      split <;> rfl
    · subst hj
      unfold parseDiagnostics
      split
      · rfl
      · have hitems : jsonItems j = [] := by
          unfold jsonItems
          cases hgf : Json.getF j "diagnostics" with
          | none => rfl
          | some v =>
            cases v with
            | arr xs => exact absurd hgf (hna xs)
            | null => rfl
            | bool b => rfl
            | num n => rfl
            | str s => rfl
            | obj fs => rfl
        simp [hitems]
  refine ⟨hempty, fun hv hc hs => ?_⟩
  simp [runAnalysisModel, runInvocationPhase, hv, hc, hs, hempty]

/-- Witness for C5 with invalid-JSON stdout on a fresh document. -/
theorem malformed_stdout_yields_empty_witness :
    parseDiagnostics "x" none sampleDoc sampleCtx = [] ∧
    (runAnalysisModel false
      (InvokeOutcome.resolves (some { stdout := "x", stderr := "", exitCode := 0 }))
      false 1 sampleDoc sampleCtx none).2 = some [] := by
  have h := malformed_stdout_yields_empty "x" none sampleDoc sampleCtx 1 false false
    { stdout := "x", stderr := "", exitCode := 0 } (Or.inr (Or.inl rfl))
  exact ⟨h.1, h.2 rfl rfl rfl⟩

/-- A pending debounce timer scheduled at `t` survives a burst of triggers
each arriving within the quiet interval, and only the final expiry fires. -/
theorem debounceFires_pending (ts : List Nat) (t : Nat)
    (h : List.Chain' (fun a b => a ≤ b ∧ b < a + debounceMs) (t :: ts)) :
    debounceFires ts (some (t + debounceMs)) = [ts.getLastD t + debounceMs] := by
  induction ts generalizing t with
  | nil => simp [debounceFires]
  | cons t2 rest ih =>
    have hrel : t ≤ t2 ∧ t2 < t + debounceMs := (List.chain'_cons.mp h).1
    have htail : List.Chain' (fun a b => a ≤ b ∧ b < a + debounceMs) (t2 :: rest) :=
      (List.chain'_cons.mp h).2
    have hnf : ¬ (t + debounceMs ≤ t2) := by omega
    simp only [debounceFires, hnf, if_false, List.nil_append, List.getLastD_cons]
    exact ih t2 htail

/-- Claim C2: a burst of triggers for one document, each arriving within the
500 ms quiet interval after its predecessor, produces exactly one analysis
invocation, and that invocation reads the document state current at the
final timer expiry; moreover each trigger replaces the document's pending
timer in the handle map (leaving exactly one entry for the key) without
touching other documents' timers. -/
theorem debounce_coalesces {α : Type} (docAt : Nat → α) (ts : List Nat)
    (h1 : ts ≠ [])
    (h2 : List.Chain' (fun a b => a ≤ b ∧ b < a + debounceMs) ts) :
    debounceInvocations docAt ts = [docAt (ts.getLastD 0 + debounceMs)] ∧
    (∀ handles key now,
      (triggerHandles handles key now).filter (fun e => decide (e.1 = key)) =
        [(key, now + debounceMs)] ∧
      (triggerHandles handles key now).filter (fun e => decide (e.1 ≠ key)) =
        handles.filter (fun e => decide (e.1 ≠ key))) := by
  constructor
  · match ts, h1 with
    | t :: rest, _ =>
      have hfires : debounceFires (t :: rest) none =
          [rest.getLastD t + debounceMs] := by
        simp only [debounceFires, List.nil_append]
        exact debounceFires_pending rest t h2
      unfold debounceInvocations
      rw [hfires, List.getLastD_cons]
      simp
  · intro handles key now
    constructor
    · have hnil : List.filter (fun e => decide (e.1 = key))
          (handles.filter (fun e => decide (e.1 ≠ key))) = [] := by
        rw [List.filter_filter]
        simp
      simp [triggerHandles, List.filter_cons, hnil]
    · have hsame : List.filter (fun e => decide (e.1 ≠ key))
          (handles.filter (fun e => decide (e.1 ≠ key))) =
          handles.filter (fun e => decide (e.1 ≠ key)) := by
        rw [List.filter_filter]
        simp
      simp [triggerHandles, List.filter_cons, hsame]

/-- Witness for C2: three triggers at 0, 100, 300 ms yield the single
invocation at 800 ms, and a trigger replaces the key's pending entry. -/
theorem debounce_coalesces_witness :
    debounceInvocations (fun n => n) [0, 100, 300] = [800] ∧
    (triggerHandles [("a", 700), ("b", 900)] "a" 300).filter
      (fun e => decide (e.1 = "a")) = [("a", 800)] := by
  have hch : List.Chain' (fun a b => a ≤ b ∧ b < a + debounceMs) [0, 100, 300] := by
    refine List.chain'_cons.mpr ⟨⟨by norm_num, by norm_num [debounceMs]⟩, ?_⟩
    refine List.chain'_cons.mpr ⟨⟨by norm_num, by norm_num [debounceMs]⟩, ?_⟩
    exact List.chain'_singleton _
  have h := debounce_coalesces (fun n => n) [0, 100, 300] (by simp) hch
  exact ⟨h.1.trans (by decide), (h.2 [("a", 700), ("b", 900)] "a" 300).1⟩

/-- Running a concatenated trace splits into the two runs, with effects
concatenated in order. -/
theorem runAnalyzer_append (st : AvailState) (l1 l2 : List AnalyzerEvent) :
    runAnalyzer st (l1 ++ l2) =
      ((runAnalyzer (runAnalyzer st l1).1 l2).1,
       (runAnalyzer st l1).2 ++ (runAnalyzer (runAnalyzer st l1).1 l2).2) := by
  induction l1 generalizing st with
  | nil => simp [runAnalyzer]
  | cons e l ih =>
    simp only [List.cons_append, runAnalyzer, List.append_eq]
    rw [ih]
    simp [List.append_assoc]

/-- A trace without an ENOENT spawn error leaves the one-time warning latch
untouched and emits no user-visible warning. -/
theorem no_enoent_no_warn (evs : List AnalyzerEvent) (st : AvailState)
    (h : AnalyzerEvent.spawnErr true ∉ evs) :
    (runAnalyzer st evs).1.notifiedMissing = st.notifiedMissing ∧
    warnCount (runAnalyzer st evs).2 = 0 := by
  induction evs generalizing st with
  | nil => simp [runAnalyzer, warnCount]
  | cons e evs ih =>
    have he : e ≠ AnalyzerEvent.spawnErr true :=
      fun hh => h (hh ▸ List.mem_cons_self e evs)
    have h2 : AnalyzerEvent.spawnErr true ∉ evs :=
      fun hh => h (List.mem_cons_of_mem e hh)
    cases e with
    | spawnErr b =>
      cases b with
      | true => exact absurd rfl he
      | false =>
        simpa [runAnalyzer, stepAnalyzer, warnCount] using ih st h2
    | procClose c =>
      by_cases hav : st.available = some false
      · simpa [runAnalyzer, stepAnalyzer, warnCount, hav] using ih st h2
      · simpa [runAnalyzer, stepAnalyzer, warnCount, hav] using
          ih { st with available := some true } h2
    | triggerEvt =>
      by_cases hav : st.available = some false <;>
        simpa [runAnalyzer, stepAnalyzer, warnCount, List.countP_cons, hav] using
          ih st h2

/-- Once the warning latch is set, every further trace keeps it set and
emits no further warning. -/
theorem notified_no_more_warn (evs : List AnalyzerEvent) (st : AvailState)
    (h : st.notifiedMissing = true) :
    (runAnalyzer st evs).1.notifiedMissing = true ∧
    warnCount (runAnalyzer st evs).2 = 0 := by
  induction evs generalizing st with
  | nil => simp [runAnalyzer, warnCount, h]
  | cons e evs ih =>
    cases e with
    | spawnErr b =>
      cases b with
      | true =>
        simpa [runAnalyzer, stepAnalyzer, warnCount, List.countP_cons, h] using
          ih { available := some false, notifiedMissing := true } rfl
      | false =>
        simpa [runAnalyzer, stepAnalyzer, warnCount] using ih st h
    | procClose c =>
      by_cases hav : st.available = some false
      · simpa [runAnalyzer, stepAnalyzer, warnCount, hav] using ih st h
      · simpa [runAnalyzer, stepAnalyzer, warnCount, hav] using
          ih { st with available := some true } (by simpa using h)
    | triggerEvt =>
      by_cases hav : st.available = some false <;>
        simpa [runAnalyzer, stepAnalyzer, warnCount, List.countP_cons, hav] using
          ih st h

/-- Once the analyzer is marked unavailable, it stays unavailable. -/
theorem unavailable_sticky (evs : List AnalyzerEvent) (st : AvailState)
    (h : st.available = some false) :
    (runAnalyzer st evs).1.available = some false := by
  induction evs generalizing st with
  | nil => simpa [runAnalyzer] using h
  | cons e evs ih =>
    cases e with
    | spawnErr b =>
      cases b with
      | true =>
        simpa [runAnalyzer, stepAnalyzer] using
          ih { available := some false, notifiedMissing := true } rfl
      | false => simpa [runAnalyzer, stepAnalyzer] using ih st h
    | procClose c =>
      simpa [runAnalyzer, stepAnalyzer, h] using ih st h
    | triggerEvt =>
      simpa [runAnalyzer, stepAnalyzer] using ih st h

/-- Claim C4: on the first ENOENT spawn failure the analyzer becomes
unavailable for the rest of the trace, exactly one user-visible warning is
emitted over the whole trace (however many further failures occur), the
diagnostic collection is cleared at that step, and every later trigger is a
no-op that starts no timer (hence spawns no process). -/
theorem enoent_one_warning (pre post : List AnalyzerEvent)
    (hpre : AnalyzerEvent.spawnErr true ∉ pre) :
    warnCount (runAnalyzer initAvail
      (pre ++ AnalyzerEvent.spawnErr true :: post)).2 = 1 ∧
    (runAnalyzer initAvail
      (pre ++ AnalyzerEvent.spawnErr true :: post)).1.available = some false ∧
    Effect.warnMissing ∈
      (stepAnalyzer (runAnalyzer initAvail pre).1 (AnalyzerEvent.spawnErr true)).2 ∧
    Effect.clearAll ∈
      (stepAnalyzer (runAnalyzer initAvail pre).1 (AnalyzerEvent.spawnErr true)).2 ∧
    (∀ mid, (stepAnalyzer
      (runAnalyzer initAvail (pre ++ AnalyzerEvent.spawnErr true :: mid)).1
      AnalyzerEvent.triggerEvt).2 = []) := by
  have hnotif : (runAnalyzer initAvail pre).1.notifiedMissing = false :=
    (no_enoent_no_warn pre initAvail hpre).1
  have hwpre : warnCount (runAnalyzer initAvail pre).2 = 0 :=
    (no_enoent_no_warn pre initAvail hpre).2
  have hstep : stepAnalyzer (runAnalyzer initAvail pre).1 (AnalyzerEvent.spawnErr true) =
      ({ available := some false, notifiedMissing := true },
       [Effect.warnMissing, Effect.clearAll]) := by
    simp [stepAnalyzer, hnotif]
  have hsplit : ∀ tail : List AnalyzerEvent,
      runAnalyzer initAvail (pre ++ AnalyzerEvent.spawnErr true :: tail) =
        ((runAnalyzer { available := some false, notifiedMissing := true } tail).1,
         (runAnalyzer initAvail pre).2 ++ [Effect.warnMissing, Effect.clearAll] ++
           (runAnalyzer { available := some false, notifiedMissing := true } tail).2) := by
    intro tail
    rw [runAnalyzer_append]
    have : runAnalyzer (runAnalyzer initAvail pre).1 (AnalyzerEvent.spawnErr true :: tail) =
        ((runAnalyzer { available := some false, notifiedMissing := true } tail).1,
         [Effect.warnMissing, Effect.clearAll] ++
           (runAnalyzer { available := some false, notifiedMissing := true } tail).2) := by
      simp only [runAnalyzer, hstep]
    rw [this]
    simp [List.append_assoc]
  refine ⟨?_, ?_, ?_, ?_, ?_⟩
  · rw [hsplit post]
    simp only [warnCount, List.countP_append]
    have h1 : warnCount
        (runAnalyzer { available := some false, notifiedMissing := true } post).2 = 0 :=
      (notified_no_more_warn post _ rfl).2
    simp only [warnCount] at hwpre h1
    simp [hwpre, h1, List.countP_cons]
  · rw [hsplit post]
    exact unavailable_sticky post _ rfl
  · rw [hstep]; simp
  · rw [hstep]; simp
  · intro mid
    rw [hsplit mid]
    have : (runAnalyzer { available := some false, notifiedMissing := true } mid).1.available
        = some false := unavailable_sticky mid _ rfl
    simp [stepAnalyzer, this]

/-- Witness for C4: a trigger, the ENOENT failure, another trigger and a
second ENOENT failure produce exactly one warning, and a trigger after the
failure starts no timer. -/
theorem enoent_one_warning_witness :
    warnCount (runAnalyzer initAvail
      ([AnalyzerEvent.triggerEvt] ++ AnalyzerEvent.spawnErr true ::
        [AnalyzerEvent.triggerEvt, AnalyzerEvent.spawnErr true])).2 = 1 ∧
    (stepAnalyzer (runAnalyzer initAvail
      ([AnalyzerEvent.triggerEvt] ++ AnalyzerEvent.spawnErr true ::
        [AnalyzerEvent.triggerEvt])).1 AnalyzerEvent.triggerEvt).2 = [] := by
  have h := enoent_one_warning [AnalyzerEvent.triggerEvt]
    [AnalyzerEvent.triggerEvt, AnalyzerEvent.spawnErr true] (by decide)
  exact ⟨h.1, h.2.2.2.2 [AnalyzerEvent.triggerEvt]⟩

/-- The accumulation loop of `buildAction` collects exactly the surviving
edits, and the `applied` flag records whether any edit survived. -/
theorem buildAction_foldl (doc : Document) (dp : Option String) :
    ∀ (edits : List Json) (acc : List (Range × String)) (b : Bool),
      edits.foldl
        (fun (acc : List (Range × String) × Bool) change =>
          match editSurvivor doc dp change with
          | some e => (acc.1 ++ [e], true)
          | none => acc)
        (acc, b) =
      (acc ++ edits.filterMap (editSurvivor doc dp),
       b || !(edits.filterMap (editSurvivor doc dp)).isEmpty) := by
  intro edits
  induction edits with
  | nil => intro acc b; simp
  | cons change rest ih =>
    intro acc b
    cases hs : editSurvivor doc dp change with
    | none =>
      simp only [List.foldl_cons, hs, List.filterMap_cons_none hs]
      exact ih acc b
    | some e =>
      simp only [List.foldl_cons, hs, List.filterMap_cons_some hs]
      rw [ih (acc ++ [e]) true]
      simp

/-- Claim C8: for a fix whose `edits` field is an array, an edit whose
resolved target path normalizes differently from the open document's path
is excluded, an edit whose location yields no range is excluded, a fix with
no surviving edit produces no action (`none`), and a produced action's
edits are exactly the surviving ones (hence non-empty). -/
theorem buildAction_filters (doc : Document) (fix : Json) (edits : List Json)
    (harr : Json.getF fix "edits" = some (Json.arr edits)) :
    (∀ change ∈ edits,
      ((optTruthy (normalizeFsPath (some (editTargetFile doc change))) ∧
        optTruthy (normalizeFsPath (some doc.fsPath)) ∧
        normalizeFsPath (some (editTargetFile doc change)) ≠
          normalizeFsPath (some doc.fsPath)) →
        editSurvivor doc (normalizeFsPath (some doc.fsPath)) change = none) ∧
      (createRangeFromLocation doc (Json.getF change "location") = none →
        editSurvivor doc (normalizeFsPath (some doc.fsPath)) change = none)) ∧
    (edits.filterMap (editSurvivor doc (normalizeFsPath (some doc.fsPath))) = [] →
      buildAction doc fix = none) ∧
    (∀ a, buildAction doc fix = some a →
      a.edits = edits.filterMap (editSurvivor doc (normalizeFsPath (some doc.fsPath))) ∧
      a.edits ≠ []) := by
  refine ⟨?_, ?_, ?_⟩
  · intro change _
    constructor
    · intro hcond
      simp only [editSurvivor]
      rw [if_pos hcond]
    · intro hrange
      simp only [editSurvivor]
      split
      · rfl
      · rw [hrange]
  · intro hnil
    simp only [buildAction, harr]
    split
    · rfl
    · rw [buildAction_foldl doc (normalizeFsPath (some doc.fsPath)) edits [] false, hnil]
      simp
  · intro a ha
    simp only [buildAction, harr] at ha
    split at ha
    · exact absurd ha (by simp)
    · rw [buildAction_foldl doc (normalizeFsPath (some doc.fsPath)) edits [] false] at ha
      split at ha
      · exact absurd ha (by simp)
      · rename_i hflag
        injection ha with ha2
        subst ha2
        constructor
        · simp
        · intro hnil2
          apply hflag
          simp only [List.nil_append] at hnil2
          simp [hnil2]

/-- A fix whose single edit targets a foreign file. -/
def sampleForeignEdit : Json :=
  Json.obj [("location", Json.obj [("file", Json.str "/other.sg"),
    ("start_line", Json.num 1), ("start_col", Json.num 1)]),
    ("new_text", Json.str "X")]

/-- A fix whose edits all target a foreign file. -/
def sampleForeignFix : Json :=
  Json.obj [("title", Json.str "fix"), ("edits", Json.arr [sampleForeignEdit])]

/-- Witness for C8: the foreign-file edit is excluded and the all-foreign
fix yields no action. -/
theorem buildAction_filters_witness :
    editSurvivor sampleDoc (normalizeFsPath (some sampleDoc.fsPath))
      sampleForeignEdit = none ∧
    buildAction sampleDoc sampleForeignFix = none := by
  have h := buildAction_filters sampleDoc sampleForeignFix [sampleForeignEdit] rfl
  refine ⟨(h.1 sampleForeignEdit (List.mem_cons_self _ _)).1 (by decide), ?_⟩
  exact h.2.1 (by decide)

/-- Behavior of the clamping stage: every produced range stays inside the
document, a start line at or beyond the line count lands on the last line,
and a degenerate same-line range is widened by one exactly when the start
character sits strictly inside its line. -/
theorem clampToDocument_spec (doc : Document) (a b c d : Nat) (r : Range)
    (h : clampToDocument doc a b c d = some r) :
    ∃ st et, doc.lines.get? r.start.line = some st ∧
      doc.lines.get? r.endPos.line = some et ∧
      r.start.line ≤ doc.lines.length - 1 ∧
      r.endPos.line ≤ doc.lines.length - 1 ∧
      r.start.character ≤ st.length ∧
      r.endPos.character ≤ et.length ∧
      (doc.lines.length ≤ a → r.start.line = doc.lines.length - 1) ∧
      (r.start.line = r.endPos.line →
        min d et.length ≤ r.start.character →
        (r.endPos.character = r.start.character + 1 ↔ r.start.character < st.length)) := by
  simp only [clampToDocument] at h
  cases hst : doc.lines.get? (min (max a 0) (doc.lines.length - 1)) with
  | none => rw [hst] at h; exact absurd h (by simp)
  | some st =>
    rw [hst] at h
    cases het : doc.lines.get? (min (max c 0) (doc.lines.length - 1)) with
    | some t =>
      rw [het] at h
      simp only [Option.some.injEq] at h
      subst h
      have hts : min (max a 0) (doc.lines.length - 1) =
          min (max c 0) (doc.lines.length - 1) → t = st := by
        intro he
        rw [← he, hst] at het
        injection het with h2
        exact h2.symm
      refine ⟨st, t, ?_, ?_, ?_, ?_, ?_, ?_, ?_, ?_⟩
      · exact hst
      · exact het
      · dsimp only; omega
      · dsimp only; omega
      · dsimp only; omega
      · dsimp only
        by_cases hcond : min (max a 0) (doc.lines.length - 1) =
            min (max c 0) (doc.lines.length - 1) ∧
            min (max d 0) t.length ≤ min (max b 0) st.length
        · rw [if_pos hcond]
          have hlen : t.length = st.length := by rw [hts hcond.1]
          by_cases hlt : min (max b 0) st.length < st.length
          · rw [if_pos hlt]; omega
          · rw [if_neg hlt]; omega
        · rw [if_neg hcond]; omega
      · dsimp only; intro hge; omega
      · dsimp only
        intro hline hdeg
        have hlen : t.length = st.length := by rw [hts hline]
        have hcond : min (max a 0) (doc.lines.length - 1) =
            min (max c 0) (doc.lines.length - 1) ∧
            min (max d 0) t.length ≤ min (max b 0) st.length := ⟨hline, by omega⟩
        rw [if_pos hcond]
        by_cases hlt : min (max b 0) st.length < st.length
        · rw [if_pos hlt]
          exact iff_of_true rfl hlt
        · rw [if_neg hlt]
          constructor
          · intro heq; omega
          · intro hcontra; exact absurd hcontra hlt
    | none =>
      rw [het] at h
      simp only [Option.some.injEq] at h
      subst h
      refine ⟨st, st, ?_, ?_, ?_, ?_, ?_, ?_, ?_, ?_⟩
      · exact hst
      · exact hst
      · dsimp only; omega
      · dsimp only; omega
      · dsimp only; omega
      · dsimp only
        split
        · split
          · rename_i hlt; omega
          · omega
        · omega
      · dsimp only; intro hge; omega
      · dsimp only
        intro _ hdeg
        have hP : min (max d 0) st.length ≤ min (max b 0) st.length := by omega
        rw [if_pos (And.intro trivial hP)]
        by_cases hlt : min (max b 0) st.length < st.length
        · rw [if_pos hlt]
          exact iff_of_true rfl hlt
        · rw [if_neg hlt]
          constructor
          · intro heq; omega
          · intro hcontra; exact absurd hcontra hlt

/-- Claim C6: every range produced by `createRangeFromLocation` is clamped
to the document (line indices at most the last line index, character
offsets at most the corresponding line length), a `start_line` at or beyond
the line count clamps to the last line, and a degenerate same-line range is
widened by one character exactly when the start character is strictly
before the end of the start line's text. -/
theorem range_clamped (doc : Document) (loc : Option Json) (r : Range)
    (h : createRangeFromLocation doc loc = some r) :
    ∃ st et, doc.lines.get? r.start.line = some st ∧
      doc.lines.get? r.endPos.line = some et ∧
      r.start.line ≤ doc.lines.length - 1 ∧
      r.endPos.line ≤ doc.lines.length - 1 ∧
      r.start.character ≤ st.length ∧
      r.endPos.character ≤ et.length ∧
      (∀ sl, rawStartLine loc = some sl → doc.lines.length ≤ sl →
        r.start.line = doc.lines.length - 1) ∧
      (∀ sl sc, rawStartLine loc = some sl → rawStartCol loc = some sc →
        r.start.line = r.endPos.line →
        min ((rawEndCol loc).getD sc) et.length ≤ r.start.character →
        (r.endPos.character = r.start.character + 1 ↔ r.start.character < st.length)) := by
  unfold createRangeFromLocation at h
  cases hsl : rawStartLine loc with
  | none => rw [hsl] at h; exact absurd h (by simp)
  | some sl =>
    cases hsc : rawStartCol loc with
    | none => rw [hsl, hsc] at h; exact absurd h (by simp)
    | some sc =>
      rw [hsl, hsc] at h
      obtain ⟨st, et, h1, h2, h3, h4, h5, h6, h7, h8⟩ :=
        clampToDocument_spec doc sl sc ((rawEndLine loc).getD sl)
          ((rawEndCol loc).getD sc) r h
      refine ⟨st, et, h1, h2, h3, h4, h5, h6, ?_, ?_⟩
      · intro sl2 hsl2 hge
        injection hsl2 with hsl3
        exact h7 (hsl3 ▸ hge)
      · intro sl2 sc2 hsl2 hsc2 hline hdeg
        injection hsc2 with hsc3
        exact h8 hline (hsc3 ▸ hdeg)

/-- A one-line document used by the C6 witness. -/
def clampDoc : Document :=
  { uriKey := "u", scheme := "file", fsPath := "/w.sg", version := 1,
    isDirty := false, isUntitled := false, isClosed := false, lines := ["ab"] }

/-- A location whose start line lies far beyond `clampDoc`. -/
def clampLoc : Option Json :=
  some (Json.obj [("start_line", Json.num 50), ("start_col", Json.num 1)])

/-- The range the pipeline produces for `clampLoc` against `clampDoc`. -/
def clampRangeOut : Range :=
  { start := { line := 0, character := 0 }, endPos := { line := 0, character := 1 } }

/-- Witness for C6: the far start line clamps to the (single) last line and
the end character stays within that line's text. -/
theorem range_clamped_witness :
    clampRangeOut.start.line = clampDoc.lines.length - 1 ∧
    clampRangeOut.endPos.character ≤ "ab".length := by
  obtain ⟨st, et, h1, h2, h3, h4, h5, h6, h7, h8⟩ :=
    range_clamped clampDoc clampLoc clampRangeOut (by decide)
  have hst : st = "ab" := by
    have : clampDoc.lines.get? clampRangeOut.start.line = some st := h1
    simp only [clampDoc, clampRangeOut, List.get?] at this
    injection this with h9
    exact h9.symm
  refine ⟨h7 49 (by decide) (by decide), ?_⟩
  have het : et = "ab" := by
    have : clampDoc.lines.get? clampRangeOut.endPos.line = some et := h2
    simp only [clampDoc, clampRangeOut, List.get?] at this
    injection this with h9
    exact h9.symm
  rw [← het]
  exact h6

/-- The C7 wire location: 1-based line 3, column 5, no end position. -/
def c7loc : Json :=
  Json.obj [("start_line", Json.num 3), ("start_col", Json.num 5)]

/-- The C7 diagnostic item. -/
def c7item : Json :=
  Json.obj [("message", Json.str "m"), ("severity", Json.str "ERROR"),
    ("location", c7loc)]

/-- The C7 payload: one diagnostic at 1-based line 3 column 5. -/
def c7payload : Json :=
  Json.obj [("diagnostics", Json.arr [c7item])]

/-- The range C7 expects for a third line of text `t3`. -/
def c7range (t3 : String) : Range :=
  { start := { line := 2, character := 4 },
    endPos := { line := 2, character := (if t3.length = 4 then 4 else 5) } }

/-- The full record C7 expects. -/
def c7diag (t3 : String) : Diagnostic :=
  { range := c7range t3, message := some (Json.str "m"),
    severity := Severity.error, source := "surge", code := none,
    related := [], fixes := none }

/-- Claim C7: a payload with one diagnostic at 1-based line 3 column 5 and
no end position, against a document whose third line has at least four
characters, produces exactly one record whose range starts at zero-based
line 2 column 4 and is zero-width there when column 4 is the end of the
line, else widened by one to column 5; and every 1-based wire number is
converted to 0-based by subtracting one. -/
theorem roundtrip_line3_col5 (doc : Document) (ctx : ContextInfo) (s : String)
    (t3 : String) (h3 : doc.lines.get? 2 = some t3) (hlen : 4 ≤ t3.length)
    (hs : isBlank s = false) :
    (parseDiagnostics s (some c7payload) doc ctx).map (fun d => d.range) =
      [c7range t3] ∧
    (∀ n : Nat, 1 ≤ n → toZeroBased (some (Json.num (n : Int))) = some (n - 1)) := by
  have h2lt : 2 < doc.lines.length := by
    by_contra hh
    push_neg at hh
    rw [List.get?_eq_none.mpr hh] at h3
    exact absurd h3 (by simp)
  have hrange : createRangeFromLocation doc (some c7loc) = some (c7range t3) := by
    unfold createRangeFromLocation
    rw [show rawStartLine (some c7loc) = some 2 from rfl,
        show rawStartCol (some c7loc) = some 4 from rfl,
        show rawEndLine (some c7loc) = none from rfl,
        show rawEndCol (some c7loc) = none from rfl]
    dsimp only [Option.getD]
    unfold clampToDocument
    dsimp only
    have hmin : min (max 2 0) (doc.lines.length - 1) = 2 := by omega
    rw [hmin, h3]
    dsimp only
    have hsc : min (max 4 0) t3.length = 4 := by omega
    simp only [hsc]
    rw [if_pos (And.intro trivial (le_refl 4))]
    unfold c7range
    by_cases h4 : t3.length = 4
    · rw [if_neg (by omega), if_pos h4]
    · rw [if_pos (by omega), if_neg h4]
  have hpi : ∀ tps, processItem doc tps c7item = some (c7diag t3) := by
    intro tps
    unfold processItem
    rw [if_neg (fun hh => hh rfl)]
    rw [show Json.getF c7item "location" = some c7loc from rfl]
    dsimp only
    rw [if_neg (fun hh => hh rfl)]
    have hfile : locFilePath c7item = none := rfl
    rw [hfile]
    rw [if_neg (fun hh => by simpa [optTruthy] using hh.2.1)]
    rw [hrange]
    rfl
  constructor
  · unfold parseDiagnostics
    rw [hs]
    simp only [Bool.false_eq_true, if_false]
    rw [show jsonItems c7payload = [c7item] from rfl]
    rw [List.filterMap_cons, hpi (targetPathsOf ctx)]
    simp [c7diag]
  · intro n hn
    unfold toZeroBased
    dsimp only
    simp only [Option.some.injEq]
    omega

/-- Witness for C7 against `sampleDoc`, whose third line is `abcd` (length
four, so the produced range is zero-width at column 4). -/
theorem roundtrip_line3_col5_witness :
    (parseDiagnostics "x" (some c7payload) sampleDoc sampleCtx).map
      (fun d => d.range) =
      ([{ start := { line := 2, character := 4 },
          endPos := { line := 2, character := 4 } }] : List Range) ∧
    toZeroBased (some (Json.num 5)) = some 4 := by
  have h := roundtrip_line3_col5 sampleDoc sampleCtx "x" "abcd" rfl (by decide)
    (by decide)
  exact ⟨h.1.trans (by decide), h.2 5 (by decide)⟩

/-- A diagnostic item whose location carries no `file` field. -/
def c3item : Json :=
  Json.obj [("message", Json.str "m"),
    ("location", Json.obj [("start_line", Json.num 1), ("start_col", Json.num 1)])]

/-- A payload with the single file-less item. -/
def c3payload : Json :=
  Json.obj [("diagnostics", Json.arr [c3item])]

/-- Counterexample to claim C3 as stated: with a non-empty target path set,
an item whose location has no `file` field (so its file does not normalize
into the set) is NOT skipped — it yields a diagnostic, because the source
only filters when the normalized location path is truthy
(`locationPath && !targetPaths.has(locationPath)` at line 297). -/
theorem path_filter_counterexample :
    targetPathsOf sampleCtx ≠ [] ∧
    locFilePath c3item = none ∧
    (parseDiagnostics "x" (some c3payload) sampleDoc sampleCtx).length = 1 := by
  refine ⟨by decide, rfl, by decide⟩

/-- Claim C3 (amended): when the target path set is non-empty, an item whose
location file normalizes to a truthy path outside the set is skipped and
contributes no diagnostic; every produced diagnostic comes from an item
whose location file either has no truthy normalization (absent, empty or
unnormalizable) or normalizes to the document path or the analysis path. -/
theorem path_filter_amended (stdout : String) (payload : Json) (doc : Document)
    (ctx : ContextInfo) (hne : targetPathsOf ctx ≠ []) :
    (∀ item ∈ jsonItems payload, ∀ p, locFilePath item = some p → p ≠ "" →
      p ∉ targetPathsOf ctx →
      processItem doc (targetPathsOf ctx) item = none) ∧
    (∀ d ∈ parseDiagnostics stdout (some payload) doc ctx,
      ∃ item ∈ jsonItems payload,
        processItem doc (targetPathsOf ctx) item = some d ∧
        (optTruthy (locFilePath item) = false ∨
          ∃ p, locFilePath item = some p ∧ p ∈ targetPathsOf ctx)) := by
  have hlen : (targetPathsOf ctx).length > 0 := List.length_pos.mpr hne
  have hskip : ∀ item p, locFilePath item = some p → p ≠ "" →
      p ∉ targetPathsOf ctx →
      processItem doc (targetPathsOf ctx) item = none := by
    intro item p hp hpne hmem
    unfold processItem
    by_cases h1 : item.truthy = true
    · rw [if_neg (not_not_intro h1)]
      cases hloc : Json.getF item "location" with
      | none => rfl
      | some loc =>
        dsimp only
        by_cases h2 : loc.truthy = true
        · rw [if_neg (not_not_intro h2)]
          rw [if_pos]
          refine ⟨hlen, ?_, ?_⟩
          · rw [hp]; simp [optTruthy, hpne]
          · rw [hp]; simp [optMemList, hmem]
        · rw [if_pos h2]
    · rw [if_pos h1]
  refine ⟨fun item _ => hskip item, ?_⟩
  intro d hd
  unfold parseDiagnostics at hd
  by_cases hb : isBlank stdout = true
  · rw [if_pos hb] at hd
    exact absurd hd (by simp)
  · rw [if_neg hb] at hd
    obtain ⟨item, hitem, hpi⟩ := List.mem_filterMap.mp hd
    refine ⟨item, hitem, hpi, ?_⟩
    by_cases hT : optTruthy (locFilePath item) = true
    · right
      cases hfp : locFilePath item with
      | none => rw [hfp] at hT; exact absurd hT (by simp [optTruthy])
      | some p =>
        refine ⟨p, rfl, ?_⟩
        by_contra hmem
        have hpne : p ≠ "" := by
          rw [hfp] at hT
          simpa [optTruthy] using hT
        rw [hskip item p hfp hpne hmem] at hpi
        exact absurd hpi (by simp)
    · left
      exact Bool.not_eq_true _ ▸ (by simpa using hT)

/-- A diagnostic item whose location file is a foreign absolute path. -/
def c3foreignItem : Json :=
  Json.obj [("location", Json.obj [("file", Json.str "/other/c.sg"),
    ("start_line", Json.num 1), ("start_col", Json.num 1)])]

/-- A payload with the single foreign-file item. -/
def c3foreignPayload : Json :=
  Json.obj [("diagnostics", Json.arr [c3foreignItem])]

/-- Witness for amended C3: the foreign-file item is skipped against the
target set of `sampleCtx`. -/
theorem path_filter_amended_witness :
    processItem sampleDoc (targetPathsOf sampleCtx) c3foreignItem = none := by
  have h := path_filter_amended "x" c3foreignPayload sampleDoc sampleCtx (by decide)
  exact h.1 c3foreignItem (List.mem_cons_self _ _) "/other/c.sg" rfl
    (by decide) (by decide)

/-! ### Path model lemmas (towards claim C10) -/

/-- The defining equation of `splitSlash` on a cons cell, stated once so
proofs can rewrite a single occurrence. -/
theorem splitSlash_cons (c : Char) (rest : List Char) :
    splitSlash (c :: rest) =
      if c = '/' then [] :: splitSlash rest
      else
        match splitSlash rest with
        | [] => [[c]]
        | s :: ss => (c :: s) :: ss := rfl

/-- `splitSlash` always yields at least one piece. -/
theorem splitSlash_ne_nil (cs : List Char) : splitSlash cs ≠ [] := by
  induction cs with
  | nil => simp [splitSlash]
  | cons c rest ih =>
    rw [splitSlash_cons]
    by_cases hc : c = '/'
    · simp [hc]
    · rw [if_neg hc]
      cases hs : splitSlash rest with
      | nil => simp
      | cons s ss => simp

/-- Every piece produced by `splitSlash` is free of separators. -/
theorem splitSlash_noSep_mem (cs : List Char) :
    ∀ x ∈ splitSlash cs, '/' ∉ x := by
  induction cs with
  | nil => intro x hx; simp [splitSlash] at hx; simp [hx]
  | cons c rest ih =>
    intro x hx
    rw [splitSlash_cons] at hx
    by_cases hc : c = '/'
    · rw [if_pos hc] at hx
      rcases List.mem_cons.mp hx with hx | hx
      · simp [hx]
      · exact ih x hx
    · rw [if_neg hc] at hx
      cases hs : splitSlash rest with
      | nil => exact absurd hs (splitSlash_ne_nil rest)
      | cons s ss =>
        rw [hs] at hx
        rcases List.mem_cons.mp hx with hx | hx
        · subst hx
          intro hmem
          rcases List.mem_cons.mp hmem with hmem | hmem
          · exact hc hmem.symm
          · exact ih s (hs ▸ List.mem_cons_self s ss) hmem
        · exact ih x (hs ▸ List.mem_cons_of_mem s hx)

/-- A separator-free character list splits into itself. -/
theorem splitSlash_noSep (s : List Char) (h : '/' ∉ s) : splitSlash s = [s] := by
  induction s with
  | nil => rfl
  | cons c rest ih =>
    have hc : ¬ c = '/' := by
      intro hh
      subst hh
      exact h (List.mem_cons_self _ _)
    have hr : '/' ∉ rest := fun hh => h (List.mem_cons_of_mem _ hh)
    rw [splitSlash_cons, if_neg hc, ih hr]

/-- Splitting a separator-free piece glued before a separator. -/
theorem splitSlash_piece (s cs : List Char) (h : '/' ∉ s) :
    splitSlash (s ++ '/' :: cs) = s :: splitSlash cs := by
  induction s with
  | nil => simp [splitSlash]
  | cons c rest ih =>
    have hc : ¬ c = '/' := by
      intro hh
      subst hh
      exact h (List.mem_cons_self _ _)
    have hr : '/' ∉ rest := fun hh => h (List.mem_cons_of_mem _ hh)
    simp only [List.cons_append]
    rw [splitSlash_cons, if_neg hc, ih hr]

/-- `splitSlash` is a left inverse of `joinSlash` on non-empty lists of
separator-free pieces. -/
theorem split_join (ss : List (List Char)) (h1 : ss ≠ [])
    (h2 : ∀ s ∈ ss, '/' ∉ s) : splitSlash (joinSlash ss) = ss := by
  induction ss with
  | nil => exact absurd rfl h1
  | cons s ts ih =>
    cases ts with
    | nil => exact splitSlash_noSep s (h2 s (List.mem_cons_self _ _))
    | cons t ts2 =>
      rw [show joinSlash (s :: t :: ts2) = s ++ '/' :: joinSlash (t :: ts2) from rfl]
      rw [splitSlash_piece _ _ (h2 s (List.mem_cons_self _ _))]
      rw [ih (by simp) (fun x hx => h2 x (List.mem_cons_of_mem _ hx))]

/-- Appending a trailing separator appends one empty piece. -/
theorem splitSlash_append_sep (a : List Char) :
    splitSlash (a ++ ['/']) = splitSlash a ++ [[]] := by
  induction a with
  | nil => decide
  | cons c a ih =>
    simp only [List.cons_append]
    rw [splitSlash_cons, splitSlash_cons]
    by_cases hc : c = '/'
    · rw [if_pos hc, if_pos hc, ih]
      simp
    · rw [if_neg hc, if_neg hc, ih]
      cases hs : splitSlash a with
      | nil => exact absurd hs (splitSlash_ne_nil a)
      | cons s rest => simp [hs]

/-- A canonical path segment: non-empty, not a dot segment, separator-free. -/
def goodSeg (s : List Char) : Prop :=
  s ≠ [] ∧ s ≠ ['.'] ∧ s ≠ ['.', '.'] ∧ '/' ∉ s

/-- On input with no dot segments, `normSegsAux` only drops empty pieces. -/
theorem normSegsAux_plain (a : Bool) (l : List (List Char)) :
    ∀ acc, (∀ s ∈ l, s = [] ∨ (s ≠ ['.'] ∧ s ≠ ['.', '.'])) →
      normSegsAux a acc l = acc.reverse ++ l.filter (fun s => decide (s ≠ [])) := by
  induction l with
  | nil => intro acc _; simp [normSegsAux]
  | cons s rest ih =>
    intro acc h
    have hs := h s (List.mem_cons_self _ _)
    have hrest := fun x hx => h x (List.mem_cons_of_mem s hx)
    unfold normSegsAux
    by_cases hnil : s = []
    · rw [if_pos (Or.inl hnil), ih acc hrest, List.filter_cons]
      simp [hnil]
    · have hdots : s ≠ ['.'] ∧ s ≠ ['.', '.'] := hs.resolve_left hnil
      rw [if_neg (by simp [hnil, hdots.1]), if_neg hdots.2, ih (s :: acc) hrest,
        List.filter_cons]
      simp [hnil]

/-- With above-root escapes disabled, `normSegsAux` only ever emits good
segments (when fed separator-free pieces and a good accumulator). -/
theorem normSegsAux_good (l : List (List Char)) :
    ∀ acc, (∀ x ∈ acc, goodSeg x) → (∀ x ∈ l, '/' ∉ x) →
      ∀ x ∈ normSegsAux false acc l, goodSeg x := by
  induction l with
  | nil =>
    intro acc hacc _ x hx
    simp only [normSegsAux, List.mem_reverse] at hx
    exact hacc x hx
  | cons s rest ih =>
    intro acc hacc hl x hx
    have hrest := fun y hy => hl y (List.mem_cons_of_mem s hy)
    unfold normSegsAux at hx
    by_cases h1 : s = [] ∨ s = ['.']
    · rw [if_pos h1] at hx
      exact ih acc hacc hrest x hx
    · rw [if_neg h1] at hx
      by_cases h2 : s = ['.', '.']
      · rw [if_pos h2] at hx
        cases acc with
        | nil =>
          dsimp only at hx
          simp only [Bool.false_eq_true, if_false] at hx
          exact ih [] (by simp) hrest x hx
        | cons top acc2 =>
          dsimp only at hx
          by_cases h3 : top = ['.', '.']
          · rw [if_pos h3] at hx
            simp only [Bool.false_eq_true, if_false] at hx
            exact ih (top :: acc2) hacc hrest x hx
          · rw [if_neg h3] at hx
            exact ih acc2 (fun y hy => hacc y (List.mem_cons_of_mem top hy)) hrest x hx
      · rw [if_neg h2] at hx
        refine ih (s :: acc) ?_ hrest x hx
        intro y hy
        rcases List.mem_cons.mp hy with hy | hy
        · subst hy
          refine ⟨?_, ?_, h2, hl y (List.mem_cons_self _ _)⟩
          · intro hh; exact h1 (Or.inl hh)
          · intro hh; exact h1 (Or.inr hh)
        · exact hacc y hy

/-- The last character of an existing non-empty list, with membership. -/
theorem getLast_mem_aux (l : List Char) (h : l ≠ []) :
    ∃ c, l.getLast? = some c ∧ c ∈ l := by
  induction l with
  | nil => exact absurd rfl h
  | cons a t ih =>
    cases t with
    | nil => exact ⟨a, rfl, List.mem_cons_self _ _⟩
    | cons b t2 =>
      obtain ⟨c, hc, hm⟩ := ih (by simp)
      exact ⟨c, by rw [List.getLast?_cons_cons]; exact hc, List.mem_cons_of_mem a hm⟩

/-- `joinSlash` of non-empty pieces is non-empty. -/
theorem joinSlash_ne_nil (ss : List (List Char)) (h1 : ss ≠ [])
    (h2 : ∀ s ∈ ss, s ≠ []) : joinSlash ss ≠ [] := by
  cases ss with
  | nil => exact absurd rfl h1
  | cons s ts =>
    cases ts with
    | nil => exact h2 s (List.mem_cons_self _ _)
    | cons t ts2 =>
      rw [show joinSlash (s :: t :: ts2) = s ++ '/' :: joinSlash (t :: ts2) from rfl]
      simp

/-- The last character of a join of separator-free non-empty pieces is not a
separator. -/
theorem joinSlash_getLast (ss : List (List Char)) (h1 : ss ≠ [])
    (h2 : ∀ s ∈ ss, s ≠ [] ∧ '/' ∉ s) :
    ∃ c, (joinSlash ss).getLast? = some c ∧ c ≠ '/' := by
  induction ss with
  | nil => exact absurd rfl h1
  | cons s ts ih =>
    cases ts with
    | nil =>
      obtain ⟨hne, hns⟩ := h2 s (List.mem_cons_self _ _)
      obtain ⟨c, hc, hm⟩ := getLast_mem_aux s hne
      exact ⟨c, hc, fun hh => hns (hh ▸ hm)⟩
    | cons t ts2 =>
      obtain ⟨c, hc, hcne⟩ := ih (by simp)
        (fun x hx => h2 x (List.mem_cons_of_mem s hx))
      refine ⟨c, ?_, hcne⟩
      rw [show joinSlash (s :: t :: ts2) = s ++ '/' :: joinSlash (t :: ts2) from rfl]
      rw [List.getLast?_append_of_ne_nil s (by simp)]
      cases hj : joinSlash (t :: ts2) with
      | nil =>
        exact absurd hj (joinSlash_ne_nil (t :: ts2) (by simp)
          (fun x hx => (h2 x (List.mem_cons_of_mem s hx)).1))
      | cons j js =>
        rw [List.getLast?_cons_cons]
        rw [hj] at hc
        exact hc

/-- Canonical absolute paths are fixed by `posixNormalizeChars`: a root
followed by good segments, with or without a trailing separator. -/
theorem normalize_canonical (segs : List (List Char)) (hne : segs ≠ [])
    (hgood : ∀ x ∈ segs, goodSeg x) :
    posixNormalizeChars ('/' :: joinSlash segs) = '/' :: joinSlash segs ∧
    posixNormalizeChars ('/' :: (joinSlash segs ++ ['/'])) =
      '/' :: (joinSlash segs ++ ['/']) := by
  have hpieces : ∀ s ∈ segs, s ≠ [] := fun s hs => (hgood s hs).1
  have hnosep : ∀ s ∈ segs, '/' ∉ s := fun s hs => (hgood s hs).2.2.2
  have hJne : joinSlash segs ≠ [] := joinSlash_ne_nil segs hne hpieces
  have hsplit : splitSlash (joinSlash segs) = segs := split_join segs hne hnosep
  have hplain : ∀ s ∈ ([] : List Char) :: segs,
      s = [] ∨ (s ≠ ['.'] ∧ s ≠ ['.', '.']) := by
    intro s hs
    rcases List.mem_cons.mp hs with hs | hs
    · exact Or.inl hs
    · exact Or.inr ⟨(hgood s hs).2.1, (hgood s hs).2.2.1⟩
  have hfilter : segs.filter (fun s => decide (s ≠ [])) = segs := by
    rw [List.filter_eq_self]
    intro s hs
    simpa using hpieces s hs
  have h0 : (decide (([] : List Char) ≠ [])) = false := by simp
  have hns : normSegs false ([] :: segs) = segs := by
    unfold normSegs
    rw [normSegsAux_plain false ([] :: segs) [] hplain, List.filter_cons, h0]
    simp only [Bool.false_eq_true, if_false, List.reverse_nil, List.nil_append]
    exact hfilter
  constructor
  · obtain ⟨c, hc, hcne⟩ := joinSlash_getLast segs hne
      (fun s hs => ⟨(hgood s hs).1, (hgood s hs).2.2.2⟩)
    have htr : ('/' :: joinSlash segs).getLast? = some c := by
      cases hj : joinSlash segs with
      | nil => exact absurd hj hJne
      | cons j js =>
        rw [List.getLast?_cons_cons]
        rw [hj] at hc
        exact hc
    have htrne : ¬ (('/' :: joinSlash segs).getLast? = some '/') := by
      rw [htr]
      intro hh
      injection hh with hh2
      exact hcne hh2
    have hsp : splitSlash ('/' :: joinSlash segs) = [] :: segs := by
      rw [splitSlash_cons, if_pos rfl, hsplit]
    have hb : (!decide (('/' :: joinSlash segs).head? = some '/')) = false := by simp
    unfold posixNormalizeChars
    rw [if_neg (by simp : ¬ ('/' :: joinSlash segs = []))]
    dsimp only
    rw [hb, hsp, hns, if_neg hne, if_neg htrne,
      if_pos (show ('/' :: joinSlash segs).head? = some '/' from by simp)]
  · have hJs : joinSlash segs ++ ['/'] ≠ [] := by simp
    have htr2 : ('/' :: (joinSlash segs ++ ['/'])).getLast? = some '/' := by
      cases hj : joinSlash segs ++ ['/'] with
      | nil => exact absurd hj hJs
      | cons j js =>
        rw [List.getLast?_cons_cons, ← hj,
          List.getLast?_append_of_ne_nil (joinSlash segs) (by simp)]
        rfl
    have hsp2 : splitSlash ('/' :: (joinSlash segs ++ ['/'])) =
        [] :: (segs ++ [[]]) := by
      rw [splitSlash_cons, if_pos rfl, splitSlash_append_sep, hsplit]
    have hplain2 : ∀ s ∈ ([] : List Char) :: (segs ++ [[]]),
        s = [] ∨ (s ≠ ['.'] ∧ s ≠ ['.', '.']) := by
      intro s hs
      rcases List.mem_cons.mp hs with hs | hs
      · exact Or.inl hs
      · rcases List.mem_append.mp hs with hs | hs
        · exact Or.inr ⟨(hgood s hs).2.1, (hgood s hs).2.2.1⟩
        · simp at hs
          exact Or.inl hs
    have hemptyfilter :
        List.filter (fun s => decide (s ≠ [])) [([] : List Char)] = [] := by simp
    have hns2 : normSegs false ([] :: (segs ++ [[]])) = segs := by
      unfold normSegs
      rw [normSegsAux_plain false _ [] hplain2, List.filter_cons,
        List.filter_append, h0, hemptyfilter]
      simp only [Bool.false_eq_true, if_false, List.reverse_nil,
        List.nil_append, List.append_nil]
      exact hfilter
    have hb2 : (!decide ((('/' :: (joinSlash segs ++ ['/'])).head?) = some '/')) =
        false := by simp
    unfold posixNormalizeChars
    rw [if_neg (by simp : ¬ ('/' :: (joinSlash segs ++ ['/']) = []))]
    dsimp only
    rw [hb2, hsp2, hns2, if_neg hne, if_pos htr2,
      if_pos (show ('/' :: (joinSlash segs ++ ['/'])).head? = some '/' from by simp)]

/-- `posixNormalizeChars` is idempotent on absolute inputs. -/
theorem posixNormalizeChars_idem (cs : List Char) (h : cs.head? = some '/') :
    posixNormalizeChars (posixNormalizeChars cs) = posixNormalizeChars cs := by
  have hne : cs ≠ [] := by
    intro hh
    rw [hh] at h
    exact absurd h (by simp)
  have hgood : ∀ x ∈ normSegs false (splitSlash cs), goodSeg x :=
    normSegsAux_good (splitSlash cs) [] (by simp) (splitSlash_noSep_mem cs)
  have hb : (!decide (cs.head? = some '/')) = false := by simp [h]
  have hq : posixNormalizeChars cs =
      if normSegs false (splitSlash cs) = [] then ['/']
      else if cs.getLast? = some '/' then
        '/' :: (joinSlash (normSegs false (splitSlash cs)) ++ ['/'])
      else '/' :: joinSlash (normSegs false (splitSlash cs)) := by
    unfold posixNormalizeChars
    rw [if_neg hne]
    dsimp only
    rw [hb]
    by_cases hseg : normSegs false (splitSlash cs) = []
    · rw [if_pos hseg, if_pos hseg, if_pos h]
    · rw [if_neg hseg, if_neg hseg]
      by_cases htr : cs.getLast? = some '/'
      · rw [if_pos htr, if_pos htr, if_pos h]
      · rw [if_neg htr, if_neg htr, if_pos h]
  by_cases hseg : normSegs false (splitSlash cs) = []
  · rw [hq, if_pos hseg]
    decide
  · rw [hq, if_neg hseg]
    by_cases htr : cs.getLast? = some '/'
    · rw [if_pos htr]
      exact (normalize_canonical _ hseg hgood).2
    · rw [if_neg htr]
      exact (normalize_canonical _ hseg hgood).1

/-- Normalizing an absolute character path yields an absolute path. -/
theorem posixNormalizeChars_head (cs : List Char) (h : cs.head? = some '/') :
    ∃ body, posixNormalizeChars cs = '/' :: body := by
  have hne : cs ≠ [] := by
    intro hh
    rw [hh] at h
    exact absurd h (by simp)
  have hb : (!decide (cs.head? = some '/')) = false := by simp [h]
  unfold posixNormalizeChars
  rw [if_neg hne]
  dsimp only
  rw [hb]
  by_cases hseg : normSegs false (splitSlash cs) = []
  · rw [if_pos hseg, if_pos h]
    exact ⟨[], rfl⟩
  · rw [if_neg hseg, if_pos h]
    exact ⟨_, rfl⟩

/-- Claim C10: `normalizeFsPath` maps absent and empty input to `undefined`,
always produces an absolute path on non-empty input, and is idempotent:
normalizing a result again returns it unchanged. -/
theorem normalizeFsPath_spec :
    normalizeFsPath none = none ∧
    normalizeFsPath (some "") = none ∧
    (∀ p, p ≠ "" → ∃ q, normalizeFsPath (some p) = some q) ∧
    (∀ p q, normalizeFsPath (some p) = some q →
      pathIsAbsolute q = true ∧ normalizeFsPath (some q) = some q) := by
  refine ⟨rfl, rfl, ?_, ?_⟩
  · intro p hp
    unfold normalizeFsPath
    dsimp only
    rw [if_neg hp]
    exact ⟨_, rfl⟩
  · intro p q h
    unfold normalizeFsPath at h
    dsimp only at h
    by_cases hp : p = ""
    · rw [if_pos hp] at h
      exact absurd h (by simp)
    · rw [if_neg hp] at h
      simp only [platformIsWin32, Bool.false_eq_true, if_false] at h
      injection h with h2
      have hcand : (if pathIsAbsolute p = true then p
          else posixResolve processCwd p).data.head? = some '/' := by
        by_cases hab : pathIsAbsolute p = true
        · rw [if_pos hab]
          unfold pathIsAbsolute at hab
          exact of_decide_eq_true hab
        · rw [if_neg hab]
          rfl
      have hq : q.data = posixNormalizeChars
          ((if pathIsAbsolute p = true then p
            else posixResolve processCwd p).data) := by
        rw [← h2]
        rfl
      have hqhead : q.data.head? = some '/' := by
        rw [hq]
        obtain ⟨body, hb⟩ := posixNormalizeChars_head _ hcand
        rw [hb]
        rfl
      have habsq : pathIsAbsolute q = true := by
        unfold pathIsAbsolute
        exact decide_eq_true hqhead
      refine ⟨habsq, ?_⟩
      have hqne : ¬ (q = "") := by
        intro hh
        rw [hh] at hqhead
        exact absurd hqhead (by simp)
      unfold normalizeFsPath
      dsimp only
      rw [if_neg hqne, if_pos habsq]
      simp only [platformIsWin32, Bool.false_eq_true, if_false]
      congr 1
      show posixNormalize q = q
      unfold posixNormalize
      have hidem : posixNormalizeChars q.data = q.data := by
        rw [hq]
        exact posixNormalizeChars_idem _ hcand
      rw [hidem]

/-- Witness for C10 at `/a/../b`: the result `/b` is absolute and a second
normalization is the identity. -/
theorem normalizeFsPath_spec_witness :
    normalizeFsPath (some "/a/../b") = some "/b" ∧
    pathIsAbsolute "/b" = true ∧
    normalizeFsPath (some "/b") = some "/b" := by
  have h1 : normalizeFsPath (some "/a/../b") = some "/b" := by decide
  have h := normalizeFsPath_spec.2.2.2 "/a/../b" "/b" h1
  exact ⟨h1, h.1, h.2⟩

end Surge
